import Mathlib

/-!
Verification of the OCR text extractor.

A shallow embedding in Lean 4 of the pure/algorithmic parts of the
`ocr_text_extractor` repository (`ocr_processor.py`, `text_processor.py`),
together with theorems settling the frozen specification claims.

Conventions of the embedding:
* Python strings are modelled as `List Char`; file-system directories as
  association lists from names to contents; paths as lists of components.
* Effectful steps (the remote OCR call, file reads/writes that may fail,
  the wall clock) are modelled by explicit oracles / parameters.
-/

/-- Whitespace as recognised by Python's `str.split()` / `str.strip()`
(restricted to the code-point range relevant here: the ASCII/Latin-1
whitespace characters).  `' '`, `'\t'`, `'\n'`, `'\x0b'`, `'\x0c'`, `'\r'`,
the separator controls 28–31, and U+0085. -/

def pyIsSpace (c : Char) : Bool :=
  c.toNat = 32 || (9 ≤ c.toNat && c.toNat ≤ 13) ||
    (28 ≤ c.toNat && c.toNat ≤ 31) || c.toNat = 133

/-- Python `content.split()` (no separator argument): maximal runs of
non-whitespace characters, with no empty words. -/

def pySplit : List Char → List (List Char)
  | [] => []
  | [c] => if pyIsSpace c then [] else [[c]]
  | c :: d :: cs =>
    if pyIsSpace c then pySplit (d :: cs)
    else if pyIsSpace d then [c] :: pySplit (d :: cs)
    else
      match pySplit (d :: cs) with
      | [] => [[c]]
      | w :: ws => (c :: w) :: ws

/-- Python `' '.join(words)`: words joined by a single space. -/

def joinWords : List (List Char) → List Char
  | [] => []
  | [w] => w
  | w :: v :: ws => w ++ ' ' :: joinWords (v :: ws)

/-- One character substitution, modelling Python `str.replace(old, new)`
for single-character arguments. -/

def replaceChar (old new : Char) (s : List Char) : List Char :=
  s.map (fun c => if c = old then new else c)

/-- The pure text-cleaning transform of `TextProcessor.clean_text_file`
(`text_processor.py` lines 31–34): replace `'\n'` and `'\r'` by spaces,
then `' '.join(content.split())`. -/

def cleanTransform (content : List Char) : List Char :=
  joinWords (pySplit (replaceChar '\r' ' ' (replaceChar '\n' ' ' content)))

/-- The metadata-stripping step of `OCRProcessor.extract_text_from_image`
(`ocr_processor.py` lines 143–148): split the decoded export on `'\n'`;
if more than two lines result, drop the first two and rejoin with `'\n'`;
otherwise return the text unchanged. -/

def stripMetadata (content : List Char) : List Char :=
  let lines := content.splitOn '\n'
  if lines.length > 2 then List.intercalate ['\n'] (lines.drop 2) else content

/-- Holds (as `true`) when the character list contains no two adjacent space characters. -/

def noDoubleSpace : List Char → Bool
  | a :: b :: r => (!(a == ' ' && b == ' ')) && noDoubleSpace (b :: r)
  | _ => true

/-! ## Lexicographic comparison and stable sorting

Python compares strings lexicographically by code point, compares `Path`
objects lexicographically by their component tuples, and `sorted` is a
stable sort by `<`.  Any stable sort agrees with any other on a decidable
total preorder, so an insertion sort is an exact model of `sorted`. -/

/-- Code-point comparison of characters (Python `<` on single characters). -/

def charLt (a b : Char) : Bool := a.toNat < b.toNat

/-- Strict lexicographic order on lists, from a strict order on elements
(Python `<` on strings / tuples). -/

def lexLt (lt : α → α → Bool) [DecidableEq α] : List α → List α → Bool
  | [], [] => false
  | [], _ :: _ => true
  | _ :: _, [] => false
  | a :: as, b :: bs => if a = b then lexLt lt as bs else lt a b

/-- Non-strict lexicographic order on lists (Python `<=`). -/

def lexLe (lt : α → α → Bool) [DecidableEq α] : List α → List α → Bool
  | [], _ => true
  | _ :: _, [] => false
  | a :: as, b :: bs => if a = b then lexLe lt as bs else lt a b

/-- Insert into a sorted list, before the first element not below `x`
(the placement a stable sort produces). -/

def insertLe (le : α → α → Bool) (x : α) : List α → List α
  | [] => [x]
  | y :: ys => if le x y then x :: y :: ys else y :: insertLe le x ys

/-- Stable insertion sort: the model of Python `sorted`. -/

def sortLe (le : α → α → Bool) : List α → List α
  | [] => []
  | x :: xs => insertLe le x (sortLe le xs)

/-! ## Decimal rendering

Python renders `int(time.time())` in f-strings as the usual decimal
numeral.  `natDigitsAux` is fuel-based structural recursion so that
concrete witnesses evaluate by `decide`. -/

def natDigitsAux : Nat → Nat → List Char
  | 0, _ => []
  | fuel + 1, n =>
    if n < 10 then [Nat.digitChar n]
    else natDigitsAux fuel (n / 10) ++ [Nat.digitChar (n % 10)]

/-- Decimal rendering of a natural number, as Python `str` does. -/

def natStr (n : Nat) : List Char := natDigitsAux (n + 1) n

/-- Value of a decimal digit string; left inverse of `natStr`. -/

def digitsVal (l : List Char) : Nat :=
  l.foldl (fun a c => 10 * a + (c.toNat - 48)) 0

/-! ## The text combiner (`text_processor.py`)

A text directory is modelled as an association list of file entries.
`combine_texts` / `combine_texts_with_headers` become functions from
directory contents and an epoch timestamp (and, for header mode, the
`time.strftime` string) to the produced file name and byte content;
the effect of the write is `setFile`. -/

structure TFile where
  name : List Char
  content : List Char
deriving DecidableEq

/-- Whether a name matches the glob `*.txt` of `_get_combinable_files`. -/

def isTxtName (nm : List Char) : Bool := ".txt".data.isSuffixOf nm

/-- Whether a name matches `name.startswith('combined_')`. -/

def isCombinedName (nm : List Char) : Bool := "combined_".data.isPrefixOf nm

/-- Model of `TextProcessor._get_combinable_files` (`text_processor.py` lines
146–149): all `*.txt` entries that do not start with `combined_`. -/

def getCombinableFiles (dir : List TFile) : List TFile :=
  dir.filter (fun f => isTxtName f.name && !isCombinedName f.name)

/-- Comparison used by `sorted(txt_files)`: the files live in one
directory, so `Path` ordering is code-point ordering of the names. -/

def fileLe (f g : TFile) : Bool := lexLe charLt f.name g.name

/-- The separator literal `b'\n\n--- Next File ---\n\n'` written between
consecutive files in no-header mode. -/

def sepBytes : List Char := "\n\n--- Next File ---\n\n".data

/-- The write loop of `combine_texts`: contents in order, `sepBytes`
between consecutive files, none after the last. -/

def catWithSep : List (List Char) → List Char
  | [] => []
  | [c] => c
  | c :: c' :: cs => c ++ sepBytes ++ catWithSep (c' :: cs)

/-- The output name `f'combined_all_{timestamp}.txt'` of `combine_texts`. -/

def combineAllName (t : Nat) : List Char :=
  "combined_all_".data ++ natStr t ++ ".txt".data

/-- Model of `TextProcessor.combine_texts` (`text_processor.py` lines 52–88):
`None` when there are no candidate files, otherwise the output file name
and its byte content. -/

def combineTexts (dir : List TFile) (t : Nat) :
    Option (List Char × List Char) :=
  let files := getCombinableFiles dir
  if files.isEmpty then none
  else some (combineAllName t, catWithSep ((sortLe fileLe files).map TFile.content))

/-- Which artifact set a combination call targets (its `output_dir`
argument, `"texts"` or `"raw_texts"`). -/

inductive TextDirSel where
  | texts
  | rawTexts
deriving DecidableEq

/-- The prefix choice `file_prefix = "cleaned" if output_dir == "texts" else "raw"`. -/

def selPfx : TextDirSel → List Char
  | .texts => "cleaned".data
  | .rawTexts => "raw".data

/-- Result of `file_prefix.upper()` for the two possible prefixes. -/

def selPfxUpper : TextDirSel → List Char
  | .texts => "CLEANED".data
  | .rawTexts => "RAW".data

/-- The output name `f'combined_{file_prefix}_{timestamp}.txt'` of
`combine_texts_with_headers`. -/

def headerOutName (sel : TextDirSel) (t : Nat) : List Char :=
  "combined_".data ++ selPfx sel ++ "_".data ++ natStr t ++ ".txt".data

/-- Python `str.strip()`: whitespace removed from both ends. -/

def pyStrip (l : List Char) : List Char :=
  ((l.dropWhile pyIsSpace).reverse.dropWhile pyIsSpace).reverse

/-- Model of `TextProcessor._write_combined_file_header`. -/

def combinedFileHeader (sel : TextDirSel) (genTime : List Char) (n : Nat) :
    List Char :=
  "Combined ".data ++ selPfxUpper sel ++ " OCR Text Files\n".data ++
    "Generated: ".data ++ genTime ++ "\n".data ++
    "Total files: ".data ++ natStr n ++ "\n".data ++
    List.replicate 80 '=' ++ "\n\n".data

/-- Model of `TextProcessor._write_file_separator`. -/

def fileBanner (i : Nat) (nm : List Char) : List Char :=
  List.replicate 60 '=' ++ "\n".data ++
    "FILE ".data ++ natStr i ++ ": ".data ++ nm ++ "\n".data ++
    List.replicate 60 '=' ++ "\n\n".data

/-- Model of `TextProcessor._write_file_content` on a readable file: the stripped
content, or the placeholder when it strips to nothing, then `'\n'`. -/

def fileContentBlock (content : List Char) : List Char :=
  (if (pyStrip content).isEmpty then "[No content or empty file]".data
   else pyStrip content) ++ "\n".data

/-- The per-file write loop of `combine_texts_with_headers`: banner,
content block, and a dashed rule before every following file. -/

def headerBody : Nat → List TFile → List Char
  | _, [] => []
  | i, [f] => fileBanner i f.name ++ fileContentBlock f.content
  | i, f :: g :: fs =>
      fileBanner i f.name ++ fileContentBlock f.content ++
        ("\n".data ++ List.replicate 40 '-' ++ "\n\n".data) ++
        headerBody (i + 1) (g :: fs)

/-- Model of `TextProcessor.combine_texts_with_headers` (`text_processor.py` lines
90–134), with the `time.strftime` result passed in as `genTime`. -/

def combineTextsWithHeaders (sel : TextDirSel) (dir : List TFile) (t : Nat)
    (genTime : List Char) : Option (List Char × List Char) :=
  let files := getCombinableFiles dir
  if files.isEmpty then none
  else
    some (headerOutName sel t,
      combinedFileHeader sel genTime files.length ++
        headerBody 1 (sortLe fileLe files))

/-- Name lookup in a directory. -/

def lookupFile : List TFile → List Char → Option (List Char)
  | [], _ => none
  | f :: fs, nm => if f.name = nm then some f.content else lookupFile fs nm

/-- Effect of `open(path, 'wb')`/`'w'` plus a full write: the named entry
now holds `content`; other entries are untouched. -/

def setFile (dir : List TFile) (nm content : List Char) : List TFile :=
  dir.filter (fun f => f.name ≠ nm) ++ [⟨nm, content⟩]

/-- A `combine_texts` call as a transformation of the directory. -/

def runCombineTexts (dir : List TFile) (t : Nat) : List TFile :=
  match combineTexts dir t with
  | none => dir
  | some (nm, c) => setFile dir nm c

/-- A `combine_texts_with_headers` call as a transformation of the
directory. -/

def runCombineTextsWithHeaders (sel : TextDirSel) (dir : List TFile)
    (t : Nat) (genTime : List Char) : List TFile :=
  match combineTextsWithHeaders sel dir t genTime with
  | none => dir
  | some (nm, c) => setFile dir nm c

/-! ## Image discovery (`OCRProcessor.get_image_files`) -/

/-- A filesystem path as its tuple of components (`pathlib.Path.parts`
relative to the working directory); `sorted` compares these tuples
lexicographically, with code-point comparison inside each component. -/

abbrev PyPath := List (List Char)

/-- Model of `Path.name`: the final path component. -/

def pathName (p : PyPath) : List Char := p.getLastD []

/-- ASCII upper-casing, modelling `str.upper()` on the (ASCII) extension
allow-list entries. -/

def asciiUpper (l : List Char) : List Char :=
  l.map (fun c =>
    if 97 ≤ c.toNat && c.toNat ≤ 122 then Char.ofNat (c.toNat - 32) else c)

/-- ASCII lower-casing (used only to state what a case-insensitive match
would be). -/

def asciiLower (l : List Char) : List Char :=
  l.map (fun c =>
    if 65 ≤ c.toNat && c.toNat ≤ 90 then Char.ofNat (c.toNat + 32) else c)

/-- Model of `Path.stem`: the final component with its suffix removed; a suffix
exists only when the last dot is neither the first nor the last
character of the name. -/

def pyStem (nm : List Char) : List Char :=
  match nm.reverse.findIdx? (fun c => c == '.') with
  | none => nm
  | some j =>
    let i := nm.length - 1 - j
    if 0 < i ∧ i < nm.length - 1 then nm.take i else nm

/-- The collection loop of `get_image_files` (`ocr_processor.py` lines
63–66): for each configured extension, the files matched by the recursive
glob `'*{ext}'`, then those matched by `'*{ext.upper()}'`.  A name matches
the glob `'*{ext}'` exactly when it ends with `ext` (case-sensitively). -/

def matchedFiles (files : List PyPath) (exts : List (List Char)) :
    List PyPath :=
  match exts with
  | [] => []
  | e :: es =>
    files.filter (fun p => e.isSuffixOf (pathName p)) ++
      files.filter (fun p => (asciiUpper e).isSuffixOf (pathName p)) ++
      matchedFiles files es

/-- Path ordering used by `sorted(image_files)`. -/

def pathLe (p q : PyPath) : Bool := lexLe (lexLt charLt) p q

/-- The dedup loop of `get_image_files` (lines 74–79): walk the sorted
list, keeping the first occurrence of each stem. -/

def dedupByStem : List PyPath → List (List Char) → List PyPath
  | [], _ => []
  | p :: ps, seen =>
    if pyStem (pathName p) ∈ seen then dedupByStem ps seen
    else p :: dedupByStem ps (pyStem (pathName p) :: seen)

/-- Model of `OCRProcessor.get_image_files` (lines 61–82). -/

def getImageFiles (files : List PyPath) (exts : List (List Char)) :
    List PyPath :=
  dedupByStem (sortLe pathLe (matchedFiles files exts)) []

/-! ## The cleaner under I/O failure (`TextProcessor.clean_text_file`) -/

/-- The failure surface of one `clean_text_file` call: the raw file's
content if it is readable (`none` = unreadable), whether the pure
transform raises, and whether each of the two writes succeeds. -/

structure CleanEnv where
  rawContent : Option (List Char)
  transformOk : Bool
  write1Ok : Bool
  write2Ok : Bool
deriving DecidableEq

/-- Model of `TextProcessor.clean_text_file` (`text_processor.py` lines 24–50) as a
function from the environment and the prior content of the clean-file path
to its content afterwards (`none` = absent).  A failing write leaves the
path as it was; a failure of the fallback copy is logged and swallowed. -/

def cleanTextFile (env : CleanEnv) (cleanBefore : Option (List Char)) :
    Option (List Char) :=
  match env.rawContent with
  | none => cleanBefore
  | some raw =>
    if env.transformOk && env.write1Ok then some (cleanTransform raw)
    else if env.write2Ok then some raw
    else cleanBefore

/-! ## The batch orchestrator (`OCRProcessor`) -/

/-- The two artifact directories (`raw_texts/` and `texts/`). -/

structure BatchState where
  rawDir : List TFile
  textsDir : List TFile
deriving DecidableEq

/-- The remote round for one image, as seen by `extract_text_from_image`:
a successful export payload; an exception raised before the raw artifact
write; or an exception raised after it (e.g. the remote delete), with the
payload that was already written. -/

inductive OcrOutcome where
  | payload (content : List Char)
  | failure (msg : List Char)
  | failureAfterRaw (content : List Char) (msg : List Char)

/-- The artifact file name `{stem}.txt` for an image path. -/

def artifactName (p : PyPath) : List Char :=
  pyStem (pathName p) ++ ".txt".data

/-- Model of `str(image_path)` (POSIX path rendering). -/

def pathStr (p : PyPath) : List Char := List.intercalate ['/'] p

/-- The skip condition of lines 92–96: both artifacts already exist. -/

def bothExist (st : BatchState) (nm : List Char) : Bool :=
  (lookupFile st.textsDir nm).isSome && (lookupFile st.rawDir nm).isSome

/-- Model of `OCRProcessor.extract_text_from_image` (`ocr_processor.py` lines
84–171): skip (returning `(True, None)`) when both artifacts exist;
otherwise upload/export via the oracle, strip metadata, write the raw
artifact, clean it into the texts directory, and return `(True, None)`;
an exception yields `(False, message)` — with the raw artifact already on
disk when the exception came after its write.  The happy path's local
writes are modelled as succeeding (per-file local write failure is the
subject of `cleanTextFile`). -/

def extractTextFromImage (oracle : PyPath → OcrOutcome) (st : BatchState)
    (p : PyPath) : (Bool × Option (List Char)) × BatchState :=
  let nm := artifactName p
  if bothExist st nm then ((true, none), st)
  else
    match oracle p with
    | .payload content =>
      let raw := stripMetadata content
      ((true, none),
        ⟨setFile st.rawDir nm raw,
          setFile st.textsDir nm (cleanTransform raw)⟩)
    | .failure msg =>
      ((false, some ("Google API error processing ".data ++ pathName p ++
        ": ".data ++ msg)), st)
    | .failureAfterRaw content msg =>
      ((false, some ("Google API error processing ".data ++ pathName p ++
        ": ".data ++ msg)),
        ⟨setFile st.rawDir nm (stripMetadata content), st.textsDir⟩)

/-- Accumulators of the per-file loop of `process_all_images` (lines
193–211). -/

structure LoopOut where
  successful : Nat
  failed : Nat
  errors : List (List Char)
  processedFiles : List (List Char)
deriving DecidableEq

/-- The per-file loop: success bumps `successful` and records the path;
failure bumps `failed` and records the message when it is truthy. -/

def runFiles (oracle : PyPath → OcrOutcome) :
    List PyPath → BatchState → LoopOut × BatchState
  | [], st => (⟨0, 0, [], []⟩, st)
  | p :: ps, st =>
    let step := extractTextFromImage oracle st p
    let rest := runFiles oracle ps step.2
    match step.1 with
    | (true, _) =>
      (⟨rest.1.successful + 1, rest.1.failed, rest.1.errors,
        pathStr p :: rest.1.processedFiles⟩, rest.2)
    | (false, none) =>
      (⟨rest.1.successful, rest.1.failed + 1, rest.1.errors,
        rest.1.processedFiles⟩, rest.2)
    | (false, some m) =>
      (⟨rest.1.successful, rest.1.failed + 1,
        if m.isEmpty then rest.1.errors else m :: rest.1.errors,
        rest.1.processedFiles⟩, rest.2)

/-- The per-run summary dictionary of `process_all_images`. -/

structure ProcResult where
  total : Nat
  successful : Nat
  failed : Nat
  errors : List (List Char)
  processedFiles : List (List Char)
deriving DecidableEq

/-- Model of `OCRProcessor.process_all_images` (lines 173–228): empty discovery
returns the zero result without reaching the combination gate; otherwise
run the loop and call `_handle_text_combination` iff `successful > 0`.
The final `Bool` records whether that gate fired. -/

def processAllImages (oracle : PyPath → OcrOutcome) (files : List PyPath)
    (st : BatchState) : ProcResult × BatchState × Bool :=
  if files.isEmpty then (⟨0, 0, 0, [], []⟩, st, false)
  else
    let r := runFiles oracle files st
    (⟨files.length, r.1.successful, r.1.failed, r.1.errors,
      r.1.processedFiles⟩, r.2, decide (0 < r.1.successful))

theorem pySplit_cons_space {c : Char} (l : List Char) (h : pyIsSpace c = true) :
    pySplit (c :: l) = pySplit l := by
  cases l with
  | nil => simp [pySplit, h]
  | cons d cs => simp [pySplit, h]

theorem pySplit_cons_cons_nonsp {c d : Char} (cs : List Char)
    (hc : pyIsSpace c = false) (hd : pyIsSpace d = true) :
    pySplit (c :: d :: cs) = [c] :: pySplit (d :: cs) := by
  simp [pySplit, hc, hd]

theorem pySplit_head : ∀ (cs : List Char) {d : Char}, pyIsSpace d = false →
    ∃ t ws, pySplit (d :: cs) = (d :: t) :: ws := by
  intro cs
  induction cs with
  | nil => intro d hd; exact ⟨[], [], by simp [pySplit, hd]⟩
  | cons e cs' ih =>
    intro d hd
    cases he : pyIsSpace e with
    | true => exact ⟨[], pySplit (e :: cs'), pySplit_cons_cons_nonsp cs' hd he⟩
    | false =>
      obtain ⟨t, ws, hts⟩ := ih he
      refine ⟨e :: t, ws, ?_⟩
      simp [pySplit, hd, he, hts]

theorem pySplit_good : ∀ {l w : List Char}, w ∈ pySplit l →
    w ≠ [] ∧ ∀ c ∈ w, pyIsSpace c = false := by
  intro l
  induction l with
  | nil => intro w hw; simp [pySplit] at hw
  | cons c rest ih =>
    intro w hw
    cases rest with
    | nil =>
      cases hc : pyIsSpace c with
      | true => simp [pySplit, hc] at hw
      | false =>
        simp [pySplit, hc] at hw
        subst hw
        exact ⟨by simp, by intro x hx; simp at hx; subst hx; exact hc⟩
    | cons d cs =>
      cases hc : pyIsSpace c with
      | true =>
        rw [pySplit_cons_space _ hc] at hw
        exact ih hw
      | false =>
        cases hd : pyIsSpace d with
        | true =>
          rw [pySplit_cons_cons_nonsp cs hc hd] at hw
          rcases List.mem_cons.mp hw with hw | hw
          · subst hw
            exact ⟨by simp, by intro x hx; simp at hx; subst hx; exact hc⟩
          · exact ih hw
        | false =>
          obtain ⟨t, ws, hts⟩ := pySplit_head cs hd
          have hrw : pySplit (c :: d :: cs) = (c :: d :: t) :: ws := by
            simp [pySplit, hc, hd, hts]
          rw [hrw] at hw
          rcases List.mem_cons.mp hw with hw | hw
          · subst hw
            refine ⟨by simp, ?_⟩
            intro x hx
            rcases List.mem_cons.mp hx with hx | hx
            · subst hx; exact hc
            · have hmem : d :: t ∈ pySplit (d :: cs) := by
                rw [hts]; exact List.mem_cons_self _ _
              exact (ih hmem).2 x hx
          · have hmem : w ∈ pySplit (d :: cs) := by
              rw [hts]; exact List.mem_cons.mpr (Or.inr hw)
            exact ih hmem

theorem pySplit_word_append : ∀ {w : List Char}, w ≠ [] →
    (∀ c ∈ w, pyIsSpace c = false) →
    ∀ (rest : List Char),
      (rest = [] ∨ ∃ r rs, rest = r :: rs ∧ pyIsSpace r = true) →
      pySplit (w ++ rest) = w :: pySplit rest := by
  intro w
  induction w with
  | nil => intro h; exact absurd rfl h
  | cons c w' ih =>
    intro _ hchars rest hrest
    have hc : pyIsSpace c = false := hchars c (List.mem_cons_self _ _)
    cases w' with
    | nil =>
      rcases hrest with h0 | ⟨r, rs, hr, hsp⟩
      · subst h0; simp [pySplit, hc]
      · subst hr
        exact pySplit_cons_cons_nonsp rs hc hsp
    | cons c' w'' =>
      have hc' : pyIsSpace c' = false :=
        hchars c' (List.mem_cons.mpr (Or.inr (List.mem_cons_self _ _)))
      have h2 : pySplit ((c' :: w'') ++ rest) = (c' :: w'') :: pySplit rest := by
        refine ih (by simp) ?_ rest hrest
        intro x hx
        exact hchars x (List.mem_cons.mpr (Or.inr hx))
      show pySplit (c :: c' :: (w'' ++ rest)) = (c :: c' :: w'') :: pySplit rest
      have hcw : c' :: (w'' ++ rest) = (c' :: w'') ++ rest := rfl
      have e : pySplit (c :: c' :: (w'' ++ rest)) =
          match pySplit (c' :: (w'' ++ rest)) with
          | [] => [[c]]
          | w :: ws => (c :: w) :: ws := by
        simp [pySplit, hc, hc']
      rw [e, hcw, h2]

theorem joinWords_cons_cons (w v : List Char) (ws : List (List Char)) :
    joinWords (w :: v :: ws) = w ++ ' ' :: joinWords (v :: ws) := rfl

theorem pySplit_joinWords : ∀ {ws : List (List Char)},
    (∀ w ∈ ws, w ≠ [] ∧ ∀ c ∈ w, pyIsSpace c = false) →
    pySplit (joinWords ws) = ws := by
  intro ws
  induction ws with
  | nil => intro _; rfl
  | cons w ws' ih =>
    intro hgood
    have hw := hgood w (List.mem_cons_self _ _)
    cases ws' with
    | nil =>
      show pySplit w = [w]
      have := pySplit_word_append hw.1 hw.2 [] (Or.inl rfl)
      simpa using this
    | cons v ws'' =>
      rw [joinWords_cons_cons]
      rw [pySplit_word_append hw.1 hw.2 (' ' :: joinWords (v :: ws''))
        (Or.inr ⟨' ', joinWords (v :: ws''), rfl, by decide⟩)]
      rw [pySplit_cons_space _ (by decide)]
      rw [ih (fun x hx => hgood x (List.mem_cons.mpr (Or.inr hx)))]

theorem mem_joinWords : ∀ {ws : List (List Char)} {c : Char},
    c ∈ joinWords ws → c = ' ' ∨ ∃ w ∈ ws, c ∈ w := by
  intro ws
  induction ws with
  | nil => intro c hc; simp [joinWords] at hc
  | cons w ws' ih =>
    intro c hc
    cases ws' with
    | nil => exact Or.inr ⟨w, List.mem_cons_self _ _, hc⟩
    | cons v ws'' =>
      rw [joinWords_cons_cons] at hc
      rcases List.mem_append.mp hc with h | h
      · exact Or.inr ⟨w, List.mem_cons_self _ _, h⟩
      · rcases List.mem_cons.mp h with h | h
        · exact Or.inl h
        · rcases ih h with h | ⟨w', hw', hcw'⟩
          · exact Or.inl h
          · exact Or.inr ⟨w', List.mem_cons.mpr (Or.inr hw'), hcw'⟩

theorem joinWords_shape {ws : List (List Char)}
    (h : ∀ w ∈ ws, w ≠ [] ∧ ∀ c ∈ w, pyIsSpace c = false) :
    joinWords ws = [] ∨
      ∃ c t, joinWords ws = c :: t ∧ pyIsSpace c = false := by
  cases ws with
  | nil => exact Or.inl rfl
  | cons w ws' =>
    have hw := h w (List.mem_cons_self _ _)
    obtain ⟨c, w₂, hcw⟩ : ∃ c w₂, w = c :: w₂ := by
      cases w with
      | nil => exact absurd rfl hw.1
      | cons c w₂ => exact ⟨c, w₂, rfl⟩
    have hc : pyIsSpace c = false := hw.2 c (hcw ▸ List.mem_cons_self _ _)
    cases ws' with
    | nil => exact Or.inr ⟨c, w₂, by simpa [joinWords] using hcw, hc⟩
    | cons v ws'' =>
      refine Or.inr ⟨c, w₂ ++ ' ' :: joinWords (v :: ws''), ?_, hc⟩
      rw [joinWords_cons_cons, hcw]
      rfl

theorem getLast?_cons_some : ∀ (l : List Char) (a : Char),
    ∃ x, (a :: l).getLast? = some x := by
  intro l
  induction l with
  | nil => intro a; exact ⟨a, rfl⟩
  | cons b t ih =>
    intro a
    obtain ⟨x, hx⟩ := ih b
    exact ⟨x, by rw [List.getLast?_cons_cons]; exact hx⟩

theorem getLast?_mem_self : ∀ {l : List Char} {c : Char},
    l.getLast? = some c → c ∈ l := by
  intro l
  induction l with
  | nil => intro c h; simp at h
  | cons a t ih =>
    intro c h
    cases t with
    | nil =>
      simp [List.getLast?] at h
      subst h; exact List.mem_cons_self _ _
    | cons b t' =>
      rw [List.getLast?_cons_cons] at h
      exact List.mem_cons.mpr (Or.inr (ih h))

theorem joinWords_getLast_nonsp : ∀ {ws : List (List Char)},
    (∀ w ∈ ws, w ≠ [] ∧ ∀ c ∈ w, pyIsSpace c = false) →
    ∀ {c : Char}, (joinWords ws).getLast? = some c → pyIsSpace c = false := by
  intro ws
  induction ws with
  | nil => intro _ c h; simp [joinWords] at h
  | cons w ws' ih =>
    intro hgood c hlast
    have hw := hgood w (List.mem_cons_self _ _)
    cases ws' with
    | nil =>
      exact hw.2 c (getLast?_mem_self hlast)
    | cons v ws'' =>
      have hgood' : ∀ x ∈ v :: ws'', x ≠ [] ∧ ∀ c ∈ x, pyIsSpace c = false :=
        fun x hx => hgood x (List.mem_cons.mpr (Or.inr hx))
      obtain ⟨c₀, t₀, hJ, _⟩ :
          ∃ c₀ t₀, joinWords (v :: ws'') = c₀ :: t₀ ∧ pyIsSpace c₀ = false := by
        rcases joinWords_shape hgood' with h | h
        · exfalso
          have hv := hgood' v (List.mem_cons_self _ _)
          cases ws'' with
          | nil =>
            exact hv.1 (by simpa [joinWords] using h)
          | cons u ws₃ =>
            rw [joinWords_cons_cons] at h
            exact hv.1 (List.append_eq_nil.mp h).1
        · exact h
      rw [joinWords_cons_cons, List.getLast?_append, hJ,
        List.getLast?_cons_cons] at hlast
      have hJlast : (joinWords (v :: ws'')).getLast? = some c := by
        rw [hJ]
        cases hlo : (c₀ :: t₀).getLast? with
        | none =>
          exfalso
          obtain ⟨x, hx⟩ := getLast?_cons_some t₀ c₀
          rw [hx] at hlo
          exact Option.noConfusion hlo
        | some x =>
          rw [hlo] at hlast
          simpa using hlast
      exact ih hgood' hJlast

theorem noDoubleSpace_word_append : ∀ {w : List Char},
    (∀ c ∈ w, pyIsSpace c = false) → ∀ {t : List Char},
    noDoubleSpace t = true → noDoubleSpace (w ++ t) = true := by
  intro w
  induction w with
  | nil => intro _ t ht; simpa using ht
  | cons a w' ih =>
    intro hchars t ht
    have ha : a ≠ ' ' := by
      intro h
      have := hchars a (List.mem_cons_self _ _)
      rw [h] at this
      simp [pyIsSpace] at this
    have htail : noDoubleSpace (w' ++ t) = true :=
      ih (fun c hc => hchars c (List.mem_cons.mpr (Or.inr hc))) ht
    have ha' : (a == ' ') = false := beq_eq_false_iff_ne.mpr ha
    show noDoubleSpace (a :: (w' ++ t)) = true
    cases hwt : w' ++ t with
    | nil => rfl
    | cons b r =>
      rw [hwt] at htail
      simp [noDoubleSpace, htail, ha']

theorem noDoubleSpace_joinWords : ∀ {ws : List (List Char)},
    (∀ w ∈ ws, w ≠ [] ∧ ∀ c ∈ w, pyIsSpace c = false) →
    noDoubleSpace (joinWords ws) = true := by
  intro ws
  induction ws with
  | nil => intro _; rfl
  | cons w ws' ih =>
    intro hgood
    have hw := hgood w (List.mem_cons_self _ _)
    cases ws' with
    | nil =>
      show noDoubleSpace w = true
      have := noDoubleSpace_word_append hw.2 (t := []) rfl
      simpa using this
    | cons v ws'' =>
      have hgood' : ∀ x ∈ v :: ws'', x ≠ [] ∧ ∀ c ∈ x, pyIsSpace c = false :=
        fun x hx => hgood x (List.mem_cons.mpr (Or.inr hx))
      rw [joinWords_cons_cons]
      refine noDoubleSpace_word_append hw.2 ?_
      rcases joinWords_shape hgood' with hJ | ⟨c₀, t₀, hJ, hc₀⟩
      · rw [hJ]; rfl
      · rw [hJ]
        have hc₀' : ¬(c₀ = ' ') := by
          intro h; rw [h] at hc₀; simp [pyIsSpace] at hc₀
        have := ih hgood'
        rw [hJ] at this
        simp [noDoubleSpace, this, hc₀']

theorem cleanTransform_good (s : List Char) :
    ∀ w ∈ pySplit (replaceChar '\r' ' ' (replaceChar '\n' ' ' s)),
      w ≠ [] ∧ ∀ c ∈ w, pyIsSpace c = false :=
  fun _ hw => pySplit_good hw

theorem not_mem_cleanTransform {c : Char} (hc : pyIsSpace c = true)
    (hne : c ≠ ' ') (s : List Char) : c ∉ cleanTransform s := by
  intro hmem
  rcases mem_joinWords hmem with h | ⟨w, hw, hcw⟩
  · exact hne h
  · have := (pySplit_good hw).2 c hcw
    rw [hc] at this
    exact Bool.true_eq_false.mp this

theorem replaceChar_eq_of_not_mem {old new : Char} {s : List Char}
    (h : old ∉ s) : replaceChar old new s = s := by
  have h1 : ∀ a ∈ s, (fun c => if c = old then new else c) a = id a := by
    intro a ha
    have : a ≠ old := fun he => h (he ▸ ha)
    simp [this]
  exact (List.map_congr_left h1).trans (List.map_id s)

theorem cleanTransform_idem (s : List Char) :
    cleanTransform (cleanTransform s) = cleanTransform s := by
  have h1 : replaceChar '\n' ' ' (cleanTransform s) = cleanTransform s :=
    replaceChar_eq_of_not_mem (not_mem_cleanTransform (by decide) (by decide) s)
  have h2 : replaceChar '\r' ' ' (cleanTransform s) = cleanTransform s :=
    replaceChar_eq_of_not_mem (not_mem_cleanTransform (by decide) (by decide) s)
  show joinWords (pySplit (replaceChar '\r' ' '
      (replaceChar '\n' ' ' (cleanTransform s)))) = cleanTransform s
  rw [h1, h2]
  show joinWords (pySplit (joinWords (pySplit _))) = _
  rw [pySplit_joinWords (fun _ hw => pySplit_good hw)]
  rfl

theorem cleanTransform_trimmed (s : List Char) :
    (cleanTransform s).dropWhile pyIsSpace = cleanTransform s ∧
    (cleanTransform s).reverse.dropWhile pyIsSpace = (cleanTransform s).reverse := by
  constructor
  · rcases joinWords_shape (cleanTransform_good s) with h | ⟨c, t, h, hc⟩
    · show (joinWords _).dropWhile pyIsSpace = joinWords _
      rw [h]; rfl
    · show (joinWords _).dropWhile pyIsSpace = joinWords _
      rw [h, List.dropWhile_cons, hc]
      simp
  · cases hrev : (cleanTransform s).reverse with
    | nil => rfl
    | cons x t' =>
      have hx : (cleanTransform s).getLast? = some x := by
        rw [← List.head?_reverse, hrev]; rfl
      have : pyIsSpace x = false :=
        joinWords_getLast_nonsp (cleanTransform_good s) hx
      rw [List.dropWhile_cons, this]
      simp

/-- Claim C4: the cleaning transform is idempotent, and its output contains
no `'\n'`, no `'\r'`, no two consecutive spaces, and no leading or trailing
whitespace. -/

theorem claim_C4_cleaning_idempotent (s : List Char) :
    cleanTransform (cleanTransform s) = cleanTransform s ∧
    '\n' ∉ cleanTransform s ∧
    '\r' ∉ cleanTransform s ∧
    noDoubleSpace (cleanTransform s) = true ∧
    (cleanTransform s).dropWhile pyIsSpace = cleanTransform s ∧
    (cleanTransform s).reverse.dropWhile pyIsSpace = (cleanTransform s).reverse :=
  ⟨cleanTransform_idem s,
   not_mem_cleanTransform (by decide) (by decide) s,
   not_mem_cleanTransform (by decide) (by decide) s,
   noDoubleSpace_joinWords (cleanTransform_good s),
   (cleanTransform_trimmed s).1,
   (cleanTransform_trimmed s).2⟩

/-- Witness for C4 at the concrete input `" a\n\r b  c "`. -/

theorem claim_C4_cleaning_idempotent_witness :
    cleanTransform (cleanTransform " a\n\r b  c ".data) =
      cleanTransform " a\n\r b  c ".data ∧
    '\n' ∉ cleanTransform " a\n\r b  c ".data ∧
    '\r' ∉ cleanTransform " a\n\r b  c ".data ∧
    noDoubleSpace (cleanTransform " a\n\r b  c ".data) = true ∧
    (cleanTransform " a\n\r b  c ".data).dropWhile pyIsSpace =
      cleanTransform " a\n\r b  c ".data ∧
    (cleanTransform " a\n\r b  c ".data).reverse.dropWhile pyIsSpace =
      (cleanTransform " a\n\r b  c ".data).reverse :=
  claim_C4_cleaning_idempotent " a\n\r b  c ".data

/-- Claim C3: splitting the decoded OCR export on `'\n'` into 2 or fewer
lines leaves the text unmodified; more than 2 lines strips exactly the
first 2 and rejoins the remainder with `'\n'`. -/

theorem claim_C3_metadata_strip (content : List Char) :
    ((content.splitOn '\n').length ≤ 2 → stripMetadata content = content) ∧
    (2 < (content.splitOn '\n').length →
      stripMetadata content =
        List.intercalate ['\n'] ((content.splitOn '\n').drop 2)) := by
  constructor
  · intro h
    show (if (content.splitOn '\n').length > 2 then
        List.intercalate ['\n'] ((content.splitOn '\n').drop 2)
      else content) = content
    rw [if_neg (by omega)]
  · intro h
    show (if (content.splitOn '\n').length > 2 then
        List.intercalate ['\n'] ((content.splitOn '\n').drop 2)
      else content) = List.intercalate ['\n'] ((content.splitOn '\n').drop 2)
    rw [if_pos (by omega)]

/-- Witness for C3: a 2-line export passes through unmodified; a 4-line
export loses exactly its first two lines. -/

theorem claim_C3_metadata_strip_witness :
    stripMetadata "a\nb".data = "a\nb".data ∧
    stripMetadata "m1\nm2\nx\ny".data =
      List.intercalate ['\n'] (("m1\nm2\nx\ny".data.splitOn '\n').drop 2) :=
  ⟨(claim_C3_metadata_strip "a\nb".data).1 (by decide),
   (claim_C3_metadata_strip "m1\nm2\nx\ny".data).2 (by decide)⟩

theorem insertLe_perm (le : α → α → Bool) (x : α) :
    ∀ l : List α, (insertLe le x l).Perm (x :: l) := by
  intro l
  induction l with
  | nil => exact List.Perm.refl _
  | cons y ys ih =>
    show (if le x y then x :: y :: ys else y :: insertLe le x ys).Perm _
    by_cases h : le x y = true
    · rw [if_pos h]
    · rw [if_neg h]
      exact (List.Perm.cons y ih).trans (List.Perm.swap x y ys)

theorem sortLe_perm (le : α → α → Bool) :
    ∀ l : List α, (sortLe le l).Perm l := by
  intro l
  induction l with
  | nil => exact List.Perm.refl _
  | cons x xs ih =>
    exact (insertLe_perm le x (sortLe le xs)).trans (List.Perm.cons x ih)

theorem mem_insertLe (le : α → α → Bool) (x : α) (l : List α) (z : α) :
    z ∈ insertLe le x l ↔ z = x ∨ z ∈ l := by
  rw [(insertLe_perm le x l).mem_iff, List.mem_cons]

theorem insertLe_pairwise (le : α → α → Bool)
    (htot : ∀ a b, le a b = true ∨ le b a = true)
    (htr : ∀ a b c, le a b = true → le b c = true → le a c = true)
    (x : α) : ∀ {l : List α}, l.Pairwise (fun a b => le a b = true) →
      (insertLe le x l).Pairwise (fun a b => le a b = true) := by
  intro l
  induction l with
  | nil => intro _; exact List.pairwise_singleton _ x
  | cons y ys ih =>
    intro hp
    show List.Pairwise _ (if le x y then x :: y :: ys else y :: insertLe le x ys)
    rcases List.pairwise_cons.mp hp with ⟨hy, hys⟩
    by_cases h : le x y = true
    · rw [if_pos h]
      refine List.pairwise_cons.mpr ⟨?_, hp⟩
      intro z hz
      rcases List.mem_cons.mp hz with hz | hz
      · exact hz ▸ h
      · exact htr x y z h (hy z hz)
    · rw [if_neg h]
      have hyx : le y x = true := (htot x y).resolve_left h
      refine List.pairwise_cons.mpr ⟨?_, ih hys⟩
      intro z hz
      rcases (mem_insertLe le x ys z).mp hz with hz | hz
      · exact hz ▸ hyx
      · exact hy z hz

theorem sortLe_pairwise (le : α → α → Bool)
    (htot : ∀ a b, le a b = true ∨ le b a = true)
    (htr : ∀ a b c, le a b = true → le b c = true → le a c = true) :
    ∀ l : List α, (sortLe le l).Pairwise (fun a b => le a b = true) := by
  intro l
  induction l with
  | nil => exact List.Pairwise.nil
  | cons x xs ih => exact insertLe_pairwise le htot htr x ih

theorem charLt_asymm {a b : Char} (h : charLt a b = true) : charLt b a = false := by
  simp [charLt] at *
  omega

theorem charLt_trans {a b c : Char} (h1 : charLt a b = true)
    (h2 : charLt b c = true) : charLt a c = true := by
  simp [charLt] at *
  omega

theorem charLt_conn {a b : Char} (h : a ≠ b) :
    charLt a b = true ∨ charLt b a = true := by
  have : a.toNat ≠ b.toNat := fun he => h (Char.ext (UInt32.ext he))
  simp [charLt]
  omega

section LexLemmas

variable {α : Type _} [DecidableEq α] {lt : α → α → Bool}

theorem lexLe_refl : ∀ l : List α, lexLe lt l l = true := by
  intro l
  induction l with
  | nil => rfl
  | cons a as ih => simp [lexLe, ih]

theorem lexLe_total (hconn : ∀ a b : α, a ≠ b → lt a b = true ∨ lt b a = true) :
    ∀ l₁ l₂ : List α, lexLe lt l₁ l₂ = true ∨ lexLe lt l₂ l₁ = true := by
  intro l₁
  induction l₁ with
  | nil => intro l₂; exact Or.inl rfl
  | cons a as ih =>
    intro l₂
    cases l₂ with
    | nil => exact Or.inr rfl
    | cons b bs =>
      by_cases hab : a = b
      · subst hab
        rcases ih bs with h | h
        · exact Or.inl (by simp [lexLe, h])
        · exact Or.inr (by simp [lexLe, h])
      · rcases hconn a b hab with h | h
        · exact Or.inl (by simp [lexLe, hab, h])
        · exact Or.inr (by simp [lexLe, Ne.symm hab, h])

theorem lexLe_trans (hasymm : ∀ a b : α, lt a b = true → lt b a = false)
    (htr : ∀ a b c : α, lt a b = true → lt b c = true → lt a c = true) :
    ∀ l₁ l₂ l₃ : List α, lexLe lt l₁ l₂ = true → lexLe lt l₂ l₃ = true →
      lexLe lt l₁ l₃ = true := by
  intro l₁
  induction l₁ with
  | nil => intro l₂ l₃ _ _; rfl
  | cons a as ih =>
    intro l₂ l₃ h12 h23
    cases l₂ with
    | nil => simp [lexLe] at h12
    | cons b bs =>
      cases l₃ with
      | nil => simp [lexLe] at h23
      | cons c cs =>
        by_cases hab : a = b
        · subst hab
          by_cases hbc : a = c
          · subst hbc
            simp [lexLe] at h12 h23 ⊢
            exact ih bs cs h12 h23
          · simp [lexLe, hbc] at h23 ⊢
            exact h23
        · by_cases hbc : b = c
          · subst hbc
            simp [lexLe, hab] at h12 ⊢
            exact h12
          · simp [lexLe, hab] at h12
            simp [lexLe, hbc] at h23
            have hac : lt a c = true := htr a b c h12 h23
            have : a ≠ c := by
              intro he
              subst he
              rw [hasymm a b h12] at h23
              exact Bool.false_ne_true h23
            simp [lexLe, this, hac]

theorem lexLe_antisymm (hasymm : ∀ a b : α, lt a b = true → lt b a = false) :
    ∀ l₁ l₂ : List α, lexLe lt l₁ l₂ = true → lexLe lt l₂ l₁ = true →
      l₁ = l₂ := by
  intro l₁
  induction l₁ with
  | nil =>
    intro l₂ _ h21
    cases l₂ with
    | nil => rfl
    | cons b bs => simp [lexLe] at h21
  | cons a as ih =>
    intro l₂ h12 h21
    cases l₂ with
    | nil => simp [lexLe] at h12
    | cons b bs =>
      by_cases hab : a = b
      · subst hab
        simp [lexLe] at h12 h21
        rw [ih bs h12 h21]
      · simp [lexLe, hab] at h12
        simp [lexLe, Ne.symm hab] at h21
        rw [hasymm a b h12] at h21
        exact absurd h21 Bool.false_ne_true

theorem lexLt_asymm (hasymm : ∀ a b : α, lt a b = true → lt b a = false) :
    ∀ l₁ l₂ : List α, lexLt lt l₁ l₂ = true → lexLt lt l₂ l₁ = false := by
  intro l₁
  induction l₁ with
  | nil =>
    intro l₂ h12
    cases l₂ with
    | nil => simp [lexLt] at h12
    | cons b bs => rfl
  | cons a as ih =>
    intro l₂ h12
    cases l₂ with
    | nil => simp [lexLt] at h12
    | cons b bs =>
      by_cases hab : a = b
      · subst hab
        simp [lexLt] at h12 ⊢
        exact ih bs h12
      · simp [lexLt, hab] at h12
        simp [lexLt, Ne.symm hab]
        exact hasymm a b h12

theorem lexLt_trans (hasymm : ∀ a b : α, lt a b = true → lt b a = false)
    (htr : ∀ a b c : α, lt a b = true → lt b c = true → lt a c = true) :
    ∀ l₁ l₂ l₃ : List α, lexLt lt l₁ l₂ = true → lexLt lt l₂ l₃ = true →
      lexLt lt l₁ l₃ = true := by
  intro l₁
  induction l₁ with
  | nil =>
    intro l₂ l₃ h12 h23
    cases l₂ with
    | nil => simp [lexLt] at h12
    | cons b bs =>
      cases l₃ with
      | nil => simp [lexLt] at h23
      | cons c cs => rfl
  | cons a as ih =>
    intro l₂ l₃ h12 h23
    cases l₂ with
    | nil => simp [lexLt] at h12
    | cons b bs =>
      cases l₃ with
      | nil => simp [lexLt] at h23
      | cons c cs =>
        by_cases hab : a = b
        · subst hab
          by_cases hbc : a = c
          · subst hbc
            simp [lexLt] at h12 h23 ⊢
            exact ih bs cs h12 h23
          · simp [lexLt, hbc] at h23 ⊢
            exact h23
        · by_cases hbc : b = c
          · subst hbc
            simp [lexLt, hab] at h12 ⊢
            exact h12
          · simp [lexLt, hab] at h12
            simp [lexLt, hbc] at h23
            have hac : lt a c = true := htr a b c h12 h23
            have : a ≠ c := by
              intro he
              subst he
              rw [hasymm a b h12] at h23
              exact Bool.false_ne_true h23
            simp [lexLt, this, hac]

theorem lexLt_conn (hconn : ∀ a b : α, a ≠ b → lt a b = true ∨ lt b a = true) :
    ∀ l₁ l₂ : List α, l₁ ≠ l₂ → lexLt lt l₁ l₂ = true ∨ lexLt lt l₂ l₁ = true := by
  intro l₁
  induction l₁ with
  | nil =>
    intro l₂ hne
    cases l₂ with
    | nil => exact absurd rfl hne
    | cons b bs => exact Or.inl rfl
  | cons a as ih =>
    intro l₂ hne
    cases l₂ with
    | nil => exact Or.inr rfl
    | cons b bs =>
      by_cases hab : a = b
      · subst hab
        have : as ≠ bs := fun he => hne (he ▸ rfl)
        rcases ih bs this with h | h
        · exact Or.inl (by simp [lexLt, h])
        · exact Or.inr (by simp [lexLt, h])
      · rcases hconn a b hab with h | h
        · exact Or.inl (by simp [lexLt, hab, h])
        · exact Or.inr (by simp [lexLt, Ne.symm hab, h])

end LexLemmas

theorem digitsVal_append (l : List Char) (c : Char) :
    digitsVal (l ++ [c]) = 10 * digitsVal l + (c.toNat - 48) := by
  unfold digitsVal
  rw [List.foldl_append]
  rfl

theorem digitChar_val (d : Nat) (h : d < 10) :
    (Nat.digitChar d).toNat - 48 = d := by
  interval_cases d <;> rfl

theorem natDigitsAux_val : ∀ fuel n, n < fuel →
    digitsVal (natDigitsAux fuel n) = n := by
  intro fuel
  induction fuel with
  | zero => intro n h; exact absurd h (Nat.not_lt_zero n)
  | succ f ih =>
    intro n h
    by_cases h10 : n < 10
    · show digitsVal (if n < 10 then [Nat.digitChar n] else _) = n
      rw [if_pos h10]
      show 10 * 0 + ((Nat.digitChar n).toNat - 48) = n
      rw [digitChar_val n h10]
      omega
    · show digitsVal (if n < 10 then [Nat.digitChar n]
        else natDigitsAux f (n / 10) ++ [Nat.digitChar (n % 10)]) = n
      rw [if_neg h10]
      have hlt : n / 10 < f := by omega
      rw [digitsVal_append, ih (n / 10) hlt, digitChar_val (n % 10) (by omega)]
      omega

theorem natStr_inj {m n : Nat} (h : natStr m = natStr n) : m = n := by
  have hm := natDigitsAux_val (m + 1) m (Nat.lt_succ_self m)
  have hn := natDigitsAux_val (n + 1) n (Nat.lt_succ_self n)
  rw [← hm, ← hn]
  unfold natStr at h
  rw [h]

example : natStr 1234 = "1234".data := by decide

example : natStr 0 = "0".data := by decide

theorem catWithSep_length : ∀ cs : List (List Char),
    (catWithSep cs).length = (cs.map List.length).sum + (cs.length - 1) * 21 := by
  intro cs
  induction cs with
  | nil => rfl
  | cons c cs' ih =>
    cases cs' with
    | nil => simp [catWithSep]
    | cons c' cs'' =>
      show (c ++ sepBytes ++ catWithSep (c' :: cs'')).length = _
      rw [List.length_append, List.length_append, ih]
      have hsep : sepBytes.length = 21 := rfl
      rw [hsep]
      simp only [List.map_cons, List.sum_cons, List.length_cons]
      omega

/-- Claim C5 (amended): the separator written between consecutive files is
the 21-byte literal `\n\n--- Next File ---\n\n` (17 visible characters plus
four newlines — not 22 bytes), and a no-header combination of N candidate
files of total length L produces exactly L + (N-1)·21 bytes. -/

theorem claim_C5_no_headers_length (dir : List TFile) (t : Nat)
    (nm out : List Char) (h : combineTexts dir t = some (nm, out)) :
    sepBytes.length = 21 ∧
    out.length =
      ((getCombinableFiles dir).map (fun f => f.content.length)).sum +
        ((getCombinableFiles dir).length - 1) * 21 := by
  refine ⟨rfl, ?_⟩
  unfold combineTexts at h
  by_cases he : (getCombinableFiles dir).isEmpty
  · simp [he] at h
  · simp only [he, Bool.false_eq_true, if_false, Option.some.injEq,
      Prod.mk.injEq] at h
    rw [← h.2, catWithSep_length, List.map_map]
    have hperm : (sortLe fileLe (getCombinableFiles dir)).Perm
        (getCombinableFiles dir) := sortLe_perm _ _
    have hsum : ((sortLe fileLe (getCombinableFiles dir)).map
          (List.length ∘ TFile.content)).sum =
        ((getCombinableFiles dir).map (List.length ∘ TFile.content)).sum :=
      (hperm.map _).sum_eq
    rw [hsum, List.length_map, hperm.length_eq]
    rfl

/-- Witness for C5 at a directory with candidates `a.txt` (3 bytes),
`b.txt` (2 bytes), one prior combined artifact and one non-txt entry. -/

theorem claim_C5_no_headers_length_witness :
    sepBytes.length = 21 ∧
    ("xxx\n\n--- Next File ---\n\nyy".data).length =
      ((getCombinableFiles [⟨"b.txt".data, "yy".data⟩,
          ⟨"a.txt".data, "xxx".data⟩,
          ⟨"combined_all_1.txt".data, "zz".data⟩,
          ⟨"c.md".data, "q".data⟩]).map (fun f => f.content.length)).sum +
        ((getCombinableFiles [⟨"b.txt".data, "yy".data⟩,
          ⟨"a.txt".data, "xxx".data⟩,
          ⟨"combined_all_1.txt".data, "zz".data⟩,
          ⟨"c.md".data, "q".data⟩]).length - 1) * 21 :=
  claim_C5_no_headers_length
    [⟨"b.txt".data, "yy".data⟩, ⟨"a.txt".data, "xxx".data⟩,
     ⟨"combined_all_1.txt".data, "zz".data⟩, ⟨"c.md".data, "q".data⟩]
    5 "combined_all_5.txt".data "xxx\n\n--- Next File ---\n\nyy".data
    (by decide)

/-- Counterexample to C5 as stated: two empty candidate files combine to a
21-byte output, not the claimed L + (N-1)·22 = 22 bytes. -/

theorem claim_C5_counterexample :
    (combineTexts [⟨"a.txt".data, []⟩, ⟨"b.txt".data, []⟩] 0).map
        (fun r => r.2.length) = some 21 ∧
    (21 : Nat) ≠ 0 + (2 - 1) * 22 := by decide

theorem lookupFile_setFile_ne (nm c x : List Char) (hx : x ≠ nm) :
    ∀ dir : List TFile,
      lookupFile (setFile dir nm c) x = lookupFile dir x := by
  intro dir
  induction dir with
  | nil =>
    show lookupFile [⟨nm, c⟩] x = none
    have hnx : nm ≠ x := fun h => hx h.symm
    simp [lookupFile, hnx]
  | cons f fs ih =>
    by_cases hf : f.name = nm
    · have hstep : setFile (f :: fs) nm c = setFile fs nm c := by
        simp [setFile, hf]
      rw [hstep, ih]
      have : f.name ≠ x := fun h => hx (h.symm.trans hf)
      simp [lookupFile, this]
    · have hstep : setFile (f :: fs) nm c = f :: setFile fs nm c := by
        simp [setFile, hf]
      rw [hstep]
      by_cases hfx : f.name = x
      · simp [lookupFile, hfx]
      · simp [lookupFile, hfx, ih]

/-- Claim C6 (amended): a file whose name starts with `combined_` is never
a combination candidate, and a combination run leaves its content
unchanged — unless its name coincides with the timestamped output name of
this very run, in which case the output write overwrites it. -/

theorem claim_C6_combined_excluded (dir : List TFile) (t : Nat)
    (sel : TextDirSel) (genTime : List Char) (f : TFile)
    (hf : f ∈ dir) (hc : isCombinedName f.name = true) :
    f ∉ getCombinableFiles dir ∧
    (f.name ≠ combineAllName t →
      lookupFile (runCombineTexts dir t) f.name = lookupFile dir f.name) ∧
    (f.name ≠ headerOutName sel t →
      lookupFile (runCombineTextsWithHeaders sel dir t genTime) f.name =
        lookupFile dir f.name) := by
  refine ⟨?_, ?_, ?_⟩
  · intro hmem
    rw [getCombinableFiles, List.mem_filter] at hmem
    rw [hc] at hmem
    simp at hmem
  · intro hne
    unfold runCombineTexts combineTexts
    by_cases he : (getCombinableFiles dir).isEmpty
    · simp [he]
    · simp only [he, Bool.false_eq_true, if_false]
      exact lookupFile_setFile_ne _ _ f.name hne dir
  · intro hne
    unfold runCombineTextsWithHeaders combineTextsWithHeaders
    by_cases he : (getCombinableFiles dir).isEmpty
    · simp [he]
    · simp only [he, Bool.false_eq_true, if_false]
      exact lookupFile_setFile_ne _ _ f.name hne dir

/-- Witness for C6: a prior `combined_q.txt` is excluded and untouched by
both combination modes at timestamp 7. -/

theorem claim_C6_combined_excluded_witness :
    (⟨"combined_q.txt".data, "keep".data⟩ : TFile) ∉
      getCombinableFiles
        [⟨"a.txt".data, "x".data⟩, ⟨"combined_q.txt".data, "keep".data⟩] ∧
    lookupFile (runCombineTexts
        [⟨"a.txt".data, "x".data⟩, ⟨"combined_q.txt".data, "keep".data⟩] 7)
      "combined_q.txt".data =
      lookupFile
        [⟨"a.txt".data, "x".data⟩, ⟨"combined_q.txt".data, "keep".data⟩]
        "combined_q.txt".data ∧
    lookupFile (runCombineTextsWithHeaders TextDirSel.texts
        [⟨"a.txt".data, "x".data⟩, ⟨"combined_q.txt".data, "keep".data⟩] 7
        "2025".data)
      "combined_q.txt".data =
      lookupFile
        [⟨"a.txt".data, "x".data⟩, ⟨"combined_q.txt".data, "keep".data⟩]
        "combined_q.txt".data := by
  have h := claim_C6_combined_excluded
    [⟨"a.txt".data, "x".data⟩, ⟨"combined_q.txt".data, "keep".data⟩] 7
    TextDirSel.texts "2025".data ⟨"combined_q.txt".data, "keep".data⟩
    (by decide) (by decide)
  exact ⟨h.1, h.2.1 (by decide), h.2.2 (by decide)⟩

/-- Counterexample to C6 as stated: a pre-existing file named exactly like
this run's timestamped output (`combined_all_5.txt`, run at epoch second 5)
begins with the combined prefix, yet the combination overwrites it. -/

theorem claim_C6_counterexample :
    isCombinedName "combined_all_5.txt".data = true ∧
    lookupFile [⟨"a.txt".data, "foo".data⟩,
        ⟨"combined_all_5.txt".data, "old".data⟩] "combined_all_5.txt".data =
      some "old".data ∧
    lookupFile (runCombineTexts [⟨"a.txt".data, "foo".data⟩,
        ⟨"combined_all_5.txt".data, "old".data⟩] 5) "combined_all_5.txt".data ≠
      some "old".data := by decide

/-- Claim C8 (amended): output names collide exactly when the epoch-second
timestamps coincide — distinct timestamps give distinct names in both
modes, but two runs within the same second produce the same name (see the
counterexample). -/

theorem claim_C8_distinct_timestamps (t₁ t₂ : Nat) (sel : TextDirSel)
    (h : t₁ ≠ t₂) :
    combineAllName t₁ ≠ combineAllName t₂ ∧
    headerOutName sel t₁ ≠ headerOutName sel t₂ := by
  constructor
  · intro he
    unfold combineAllName at he
    exact h (natStr_inj (List.append_cancel_left (List.append_cancel_right he)))
  · intro he
    unfold headerOutName at he
    exact h (natStr_inj (List.append_cancel_left (List.append_cancel_right he)))

/-- Witness for C8 at timestamps 1 and 2. -/

theorem claim_C8_distinct_timestamps_witness :
    combineAllName 1 ≠ combineAllName 2 ∧
    headerOutName TextDirSel.texts 1 ≠ headerOutName TextDirSel.texts 2 :=
  claim_C8_distinct_timestamps 1 2 TextDirSel.texts (by decide)

/-- Counterexample to C8 as stated: two invocations in the same epoch
second (the second one running on the directory the first one produced)
both emit the name `combined_all_100.txt` — a collision and overwrite. -/

theorem claim_C8_counterexample :
    (combineTexts [⟨"a.txt".data, "x".data⟩] 100).map Prod.fst =
      some "combined_all_100.txt".data ∧
    (combineTexts (runCombineTexts [⟨"a.txt".data, "x".data⟩] 100) 100).map
        Prod.fst = some "combined_all_100.txt".data := by decide

example : pyStem "a.png".data = "a".data := by decide

example : pyStem ".png".data = ".png".data := by decide

example : pyStem "a.b.png".data = "a.b".data := by decide

example : pyStem "noext".data = "noext".data := by decide

theorem nameLt_asymm : ∀ a b : List Char,
    lexLt charLt a b = true → lexLt charLt b a = false :=
  lexLt_asymm (fun _ _ h => charLt_asymm h)

theorem nameLt_trans : ∀ a b c : List Char, lexLt charLt a b = true →
    lexLt charLt b c = true → lexLt charLt a c = true :=
  lexLt_trans (fun _ _ h => charLt_asymm h)
    (fun _ _ _ h1 h2 => charLt_trans h1 h2)

theorem nameLt_conn : ∀ a b : List Char, a ≠ b →
    lexLt charLt a b = true ∨ lexLt charLt b a = true :=
  lexLt_conn (fun _ _ h => charLt_conn h)

theorem pathLe_total : ∀ p q : PyPath, pathLe p q = true ∨ pathLe q p = true :=
  lexLe_total nameLt_conn

theorem pathLe_trans : ∀ p q r : PyPath, pathLe p q = true →
    pathLe q r = true → pathLe p r = true :=
  lexLe_trans nameLt_asymm nameLt_trans

theorem pathLe_antisymm : ∀ p q : PyPath, pathLe p q = true →
    pathLe q p = true → p = q :=
  lexLe_antisymm nameLt_asymm

theorem mem_dedupByStem : ∀ (l : List PyPath) (seen : List (List Char))
    (p : PyPath), l.Pairwise (fun a b => pathLe a b = true) →
    (p ∈ dedupByStem l seen ↔
      p ∈ l ∧ pyStem (pathName p) ∉ seen ∧
        ∀ q ∈ l, pyStem (pathName q) = pyStem (pathName p) →
          pathLe p q = true) := by
  intro l
  induction l with
  | nil => intro seen p _; simp [dedupByStem]
  | cons x xs ih =>
    intro seen p hp
    rcases List.pairwise_cons.mp hp with ⟨hx, hxs⟩
    by_cases hseen : pyStem (pathName x) ∈ seen
    · have hstep : dedupByStem (x :: xs) seen = dedupByStem xs seen := by
        simp [dedupByStem, hseen]
      rw [hstep, ih seen p hxs]
      constructor
      · rintro ⟨h1, h2, h3⟩
        refine ⟨List.mem_cons.mpr (Or.inr h1), h2, ?_⟩
        intro q hq hsq
        rcases List.mem_cons.mp hq with hq | hq
        · exact absurd (hsq ▸ (hq ▸ hseen)) h2
        · exact h3 q hq hsq
      · rintro ⟨h1, h2, h3⟩
        rcases List.mem_cons.mp h1 with h1 | h1
        · exact absurd (h1 ▸ hseen) h2
        · exact ⟨h1, h2, fun q hq hsq => h3 q (List.mem_cons.mpr (Or.inr hq)) hsq⟩
    · have hstep : dedupByStem (x :: xs) seen =
          x :: dedupByStem xs (pyStem (pathName x) :: seen) := by
        simp [dedupByStem, hseen]
      rw [hstep]
      constructor
      · intro hmem
        rcases List.mem_cons.mp hmem with hmem | hmem
        · subst hmem
          refine ⟨List.mem_cons_self _ _, hseen, ?_⟩
          intro q hq hsq
          rcases List.mem_cons.mp hq with hq | hq
          · subst hq; exact lexLe_refl _
          · exact hx q hq
        · rcases (ih _ p hxs).mp hmem with ⟨h1, h2, h3⟩
          have h2' : pyStem (pathName p) ∉ seen :=
            fun hh => h2 (List.mem_cons.mpr (Or.inr hh))
          have hne : pyStem (pathName p) ≠ pyStem (pathName x) :=
            fun hh => h2 (List.mem_cons.mpr (Or.inl hh))
          refine ⟨List.mem_cons.mpr (Or.inr h1), h2', ?_⟩
          intro q hq hsq
          rcases List.mem_cons.mp hq with hq | hq
          · exact absurd (hq ▸ hsq) (fun hh => hne hh.symm)
          · exact h3 q hq hsq
      · rintro ⟨h1, h2, h3⟩
        by_cases hpx : p = x
        · exact List.mem_cons.mpr (Or.inl hpx)
        · have hpxs : p ∈ xs := (List.mem_cons.mp h1).resolve_left hpx
          have hne : pyStem (pathName p) ≠ pyStem (pathName x) := by
            intro hh
            have hle1 : pathLe p x = true :=
              h3 x (List.mem_cons_self _ _) hh.symm
            have hle2 : pathLe x p = true := hx p hpxs
            exact hpx (pathLe_antisymm p x hle1 hle2)
          refine List.mem_cons.mpr (Or.inr ((ih _ p hxs).mpr ⟨hpxs, ?_, ?_⟩))
          · intro hh
            rcases List.mem_cons.mp hh with hh | hh
            · exact hne hh
            · exact h2 hh
          · exact fun q hq hsq => h3 q (List.mem_cons.mpr (Or.inr hq)) hsq

/-- Claim C7 (amended): discovery collects exactly the files whose name
ends with a configured extension as written or fully upper-cased (not
arbitrary case mixtures — see the counterexample), and among the collected
files sharing a stem exactly the lexicographically least path is kept. -/

theorem claim_C7_discovery (files : List PyPath) (exts : List (List Char))
    (p : PyPath) :
    (p ∈ matchedFiles files exts ↔
      p ∈ files ∧ ∃ e ∈ exts,
        (e.isSuffixOf (pathName p) = true ∨
          (asciiUpper e).isSuffixOf (pathName p) = true)) ∧
    (p ∈ getImageFiles files exts ↔
      p ∈ matchedFiles files exts ∧
        ∀ q ∈ matchedFiles files exts,
          pyStem (pathName q) = pyStem (pathName p) →
            pathLe p q = true) := by
  constructor
  · induction exts with
    | nil => simp [matchedFiles]
    | cons e es ih =>
      simp only [matchedFiles, List.mem_append, List.mem_filter, ih]
      constructor
      · rintro ((⟨h1, h2⟩ | ⟨h1, h2⟩) | ⟨h1, e', he', h2⟩)
        · exact ⟨h1, e, List.mem_cons_self _ _, Or.inl h2⟩
        · exact ⟨h1, e, List.mem_cons_self _ _, Or.inr h2⟩
        · exact ⟨h1, e', List.mem_cons.mpr (Or.inr he'), h2⟩
      · rintro ⟨h1, e', he', h2⟩
        rcases List.mem_cons.mp he' with he' | he'
        · subst he'
          rcases h2 with h2 | h2
          · exact Or.inl (Or.inl ⟨h1, h2⟩)
          · exact Or.inl (Or.inr ⟨h1, h2⟩)
        · exact Or.inr ⟨h1, e', he', h2⟩
  · have hperm : (sortLe pathLe (matchedFiles files exts)).Perm
        (matchedFiles files exts) := sortLe_perm _ _
    have hpair : (sortLe pathLe (matchedFiles files exts)).Pairwise
        (fun a b => pathLe a b = true) :=
      sortLe_pairwise pathLe pathLe_total pathLe_trans _
    rw [getImageFiles, mem_dedupByStem _ [] p hpair]
    constructor
    · rintro ⟨h1, _, h3⟩
      exact ⟨hperm.mem_iff.mp h1,
        fun q hq hsq => h3 q (hperm.mem_iff.mpr hq) hsq⟩
    · rintro ⟨h1, h3⟩
      exact ⟨hperm.mem_iff.mpr h1, by simp,
        fun q hq hsq => h3 q (hperm.mem_iff.mp hq) hsq⟩

/-- Witness for C7: `img/a.png` is kept (it is the lexicographically least
of the two paths with stem `a`), via the discovery characterisation. -/

theorem claim_C7_discovery_witness :
    ["img".data, "a.png".data] ∈
      getImageFiles
        [["img2".data, "a.png".data], ["img".data, "a.png".data],
          ["img".data, "b.PNG".data]]
        [".png".data] :=
  ((claim_C7_discovery
      [["img2".data, "a.png".data], ["img".data, "a.png".data],
        ["img".data, "b.PNG".data]]
      [".png".data] ["img".data, "a.png".data]).2).mpr (by decide)

/-- Counterexample to C7 as stated: `images/a.Png` matches the allow-list
entry `.png` case-insensitively, but the globs only try `.png` and `.PNG`,
so discovery misses it entirely. -/

theorem claim_C7_counterexample :
    ".png".data.isSuffixOf
      (asciiLower (pathName ["images".data, "a.Png".data])) = true ∧
    getImageFiles [["images".data, "a.Png".data]] [".png".data] = [] := by
  decide

/-- Claim C9 (amended): when the raw file is readable and the transform or
the write of the cleaned file fails, the fallback writes the raw content
verbatim — provided the fallback write itself succeeds.  (The code
swallows a fallback failure, so the clean artifact can stay absent: see
the counterexample.) -/

theorem claim_C9_fallback (env : CleanEnv) (before : Option (List Char))
    (raw : List Char) (hraw : env.rawContent = some raw)
    (hfail : (env.transformOk && env.write1Ok) = false)
    (hw2 : env.write2Ok = true) :
    cleanTextFile env before = some raw := by
  simp [cleanTextFile, hraw, hfail, hw2]

/-- Witness for C9: the transform raises, the fallback write succeeds. -/

theorem claim_C9_fallback_witness :
    cleanTextFile ⟨some "ab".data, false, true, true⟩ none = some "ab".data :=
  claim_C9_fallback ⟨some "ab".data, false, true, true⟩ none "ab".data rfl
    (by decide) rfl

/-- Counterexample to C9 as stated: the raw file is readable, the first
write fails and so does the fallback write; the error is swallowed and the
clean artifact stays absent. -/

theorem claim_C9_counterexample :
    cleanTextFile ⟨some "hi".data, true, false, false⟩ none = none ∧
    cleanTextFile ⟨some "hi".data, true, false, false⟩ none ≠
      some "hi".data := by decide

theorem runFiles_cons_snd (oracle : PyPath → OcrOutcome) (p : PyPath)
    (ps : List PyPath) (st : BatchState) :
    (runFiles oracle (p :: ps) st).2 =
      (runFiles oracle ps (extractTextFromImage oracle st p).2).2 := by
  rcases h : (extractTextFromImage oracle st p).1 with ⟨b, m⟩
  cases b <;> cases m <;> simp [runFiles, h]

theorem runFiles_invariants (oracle : PyPath → OcrOutcome) :
    ∀ (files : List PyPath) (st : BatchState),
      (runFiles oracle files st).1.successful +
          (runFiles oracle files st).1.failed = files.length ∧
      (runFiles oracle files st).1.processedFiles.length =
        (runFiles oracle files st).1.successful ∧
      (runFiles oracle files st).1.errors.length ≤
        (runFiles oracle files st).1.failed := by
  intro files
  induction files with
  | nil => intro st; exact ⟨rfl, rfl, Nat.le_refl 0⟩
  | cons p ps ih =>
    intro st
    obtain ⟨ih1, ih2, ih3⟩ := ih (extractTextFromImage oracle st p).2
    rcases h : (extractTextFromImage oracle st p).1 with ⟨b, m⟩
    cases b
    · cases m with
      | none =>
        simp only [runFiles, h, List.length_cons]
        refine ⟨by omega, ih2, by omega⟩
      | some mm =>
        simp only [runFiles, h, List.length_cons]
        by_cases hm : mm.isEmpty
        · simp only [hm, if_true]
          refine ⟨by omega, ih2, by omega⟩
        · simp only [hm, Bool.false_eq_true, if_false]
          refine ⟨by omega, ih2, by simp [List.length_cons]; omega⟩
    · cases m <;>
        (simp only [runFiles, h, List.length_cons]
         refine ⟨by omega, by simp [List.length_cons]; omega, by omega⟩)

/-- Claim C10: in every Processing Result, `total = successful + failed`,
`len(processed_files) = successful`, and `len(errors) ≤ failed`. -/

theorem claim_C10_result_invariants (oracle : PyPath → OcrOutcome)
    (files : List PyPath) (st : BatchState) :
    (processAllImages oracle files st).1.total =
      (processAllImages oracle files st).1.successful +
        (processAllImages oracle files st).1.failed ∧
    (processAllImages oracle files st).1.processedFiles.length =
      (processAllImages oracle files st).1.successful ∧
    (processAllImages oracle files st).1.errors.length ≤
      (processAllImages oracle files st).1.failed := by
  obtain ⟨h1, h2, h3⟩ := runFiles_invariants oracle files st
  by_cases he : files.isEmpty
  · simp [processAllImages, he]
  · simp only [processAllImages, he, Bool.false_eq_true, if_false]
    exact ⟨h1.symm, h2, h3⟩

theorem extract_preserves (oracle : PyPath → OcrOutcome) (st : BatchState)
    (q : PyPath) (nm : List Char) (h : bothExist st nm = true) :
    lookupFile (extractTextFromImage oracle st q).2.rawDir nm =
      lookupFile st.rawDir nm ∧
    lookupFile (extractTextFromImage oracle st q).2.textsDir nm =
      lookupFile st.textsDir nm := by
  by_cases hskip : bothExist st (artifactName q) = true
  · simp [extractTextFromImage, hskip]
  · have hne : nm ≠ artifactName q := fun he => hskip (he ▸ h)
    cases horc : oracle q with
    | payload content =>
      simp only [extractTextFromImage, hskip, Bool.false_eq_true, if_false,
        horc]
      exact ⟨lookupFile_setFile_ne _ _ nm hne _,
        lookupFile_setFile_ne _ _ nm hne _⟩
    | failure msg =>
      simp [extractTextFromImage, hskip, horc]
    | failureAfterRaw content msg =>
      simp only [extractTextFromImage, hskip, Bool.false_eq_true, if_false,
        horc]
      exact ⟨lookupFile_setFile_ne _ _ nm hne _, trivial⟩

theorem extract_preserves_both (oracle : PyPath → OcrOutcome)
    (st : BatchState) (q : PyPath) (nm : List Char)
    (h : bothExist st nm = true) :
    bothExist (extractTextFromImage oracle st q).2 nm = true := by
  obtain ⟨h1, h2⟩ := extract_preserves oracle st q nm h
  unfold bothExist at h ⊢
  rw [h1, h2]
  exact h

theorem runFiles_preserves (oracle : PyPath → OcrOutcome) (nm : List Char) :
    ∀ (files : List PyPath) (st : BatchState), bothExist st nm = true →
      lookupFile (runFiles oracle files st).2.rawDir nm =
        lookupFile st.rawDir nm ∧
      lookupFile (runFiles oracle files st).2.textsDir nm =
        lookupFile st.textsDir nm := by
  intro files
  induction files with
  | nil => intro st _; exact ⟨rfl, rfl⟩
  | cons p ps ih =>
    intro st h
    obtain ⟨h1, h2⟩ := extract_preserves oracle st p nm h
    have hboth := extract_preserves_both oracle st p nm h
    obtain ⟨h3, h4⟩ := ih _ hboth
    rw [runFiles_cons_snd]
    exact ⟨h3.trans h1, h4.trans h2⟩

theorem runFiles_skip_mem (oracle : PyPath → OcrOutcome) :
    ∀ (files : List PyPath) (st : BatchState) (p : PyPath), p ∈ files →
      bothExist st (artifactName p) = true →
      pathStr p ∈ (runFiles oracle files st).1.processedFiles ∧
      0 < (runFiles oracle files st).1.successful := by
  intro files
  induction files with
  | nil => intro st p hp _; exact absurd hp (List.not_mem_nil p)
  | cons q ps ih =>
    intro st p hp hb
    rcases List.mem_cons.mp hp with hp | hp
    · subst hp
      have hstep : extractTextFromImage oracle st p = ((true, none), st) := by
        simp [extractTextFromImage, hb]
      simp [runFiles, hstep]
    · have hb' := extract_preserves_both oracle st q (artifactName p) hb
      obtain ⟨hm, hs⟩ := ih _ p hp hb'
      rcases h : (extractTextFromImage oracle st q).1 with ⟨b, m⟩
      cases b
      · cases m with
        | none => simp only [runFiles, h]; exact ⟨hm, hs⟩
        | some mm => simp only [runFiles, h]; exact ⟨hm, hs⟩
      · cases m <;>
          (simp only [runFiles, h]
           exact ⟨List.mem_cons.mpr (Or.inr hm), Nat.succ_pos _⟩)

/-- Claim C1 (amended): a file whose raw and cleaned artifacts both exist
at the start of the run is skipped — no artifact of its stem is created or
changed — but `extract_text_from_image` reports the skip as `(True, None)`,
so the run counts it as *successful* and lists it in `processed_files`
(it is not absent from the counts as the claim states; see the
counterexample). -/

theorem claim_C1_skipped_files (oracle : PyPath → OcrOutcome)
    (files : List PyPath) (st : BatchState) (p : PyPath) (hp : p ∈ files)
    (hb : bothExist st (artifactName p) = true) :
    lookupFile (processAllImages oracle files st).2.1.rawDir
        (artifactName p) = lookupFile st.rawDir (artifactName p) ∧
    lookupFile (processAllImages oracle files st).2.1.textsDir
        (artifactName p) = lookupFile st.textsDir (artifactName p) ∧
    pathStr p ∈ (processAllImages oracle files st).1.processedFiles ∧
    0 < (processAllImages oracle files st).1.successful := by
  have hne : files.isEmpty = false := by
    cases files with
    | nil => exact absurd hp (List.not_mem_nil p)
    | cons a l => rfl
  obtain ⟨h1, h2⟩ := runFiles_preserves oracle (artifactName p) files st hb
  obtain ⟨h3, h4⟩ := runFiles_skip_mem oracle files st p hp hb
  simp only [processAllImages, hne, Bool.false_eq_true, if_false]
  exact ⟨h1, h2, h3, h4⟩

/-- Witness for C1: a batch over `img/a.png` whose artifacts `a.txt`
already exist in both directories. -/

theorem claim_C1_skipped_files_witness :
    lookupFile (processAllImages (fun _ => OcrOutcome.payload "x".data)
        [["img".data, "a.png".data]]
        ⟨[⟨"a.txt".data, "r".data⟩], [⟨"a.txt".data, "c".data⟩]⟩).2.1.rawDir
        (artifactName ["img".data, "a.png".data]) =
      lookupFile [⟨"a.txt".data, "r".data⟩]
        (artifactName ["img".data, "a.png".data]) ∧
    lookupFile (processAllImages (fun _ => OcrOutcome.payload "x".data)
        [["img".data, "a.png".data]]
        ⟨[⟨"a.txt".data, "r".data⟩], [⟨"a.txt".data, "c".data⟩]⟩).2.1.textsDir
        (artifactName ["img".data, "a.png".data]) =
      lookupFile [⟨"a.txt".data, "c".data⟩]
        (artifactName ["img".data, "a.png".data]) ∧
    pathStr ["img".data, "a.png".data] ∈
      (processAllImages (fun _ => OcrOutcome.payload "x".data)
        [["img".data, "a.png".data]]
        ⟨[⟨"a.txt".data, "r".data⟩],
          [⟨"a.txt".data, "c".data⟩]⟩).1.processedFiles ∧
    0 < (processAllImages (fun _ => OcrOutcome.payload "x".data)
        [["img".data, "a.png".data]]
        ⟨[⟨"a.txt".data, "r".data⟩],
          [⟨"a.txt".data, "c".data⟩]⟩).1.successful :=
  claim_C1_skipped_files (fun _ => OcrOutcome.payload "x".data)
    [["img".data, "a.png".data]]
    ⟨[⟨"a.txt".data, "r".data⟩], [⟨"a.txt".data, "c".data⟩]⟩
    ["img".data, "a.png".data] (by decide) (by decide)

/-- Counterexample to C1 as stated: the single discovered file is skipped
(both artifacts exist), yet `successful` is 1, not 0 — a skipped file *is*
counted in the successful count. -/

theorem claim_C1_counterexample :
    (processAllImages (fun _ => OcrOutcome.payload "x".data)
        [["img".data, "a.png".data]]
        ⟨[⟨"a.txt".data, "r".data⟩],
          [⟨"a.txt".data, "c".data⟩]⟩).1.successful ≠ 0 ∧
    (processAllImages (fun _ => OcrOutcome.payload "x".data)
        [["img".data, "a.png".data]]
        ⟨[⟨"a.txt".data, "r".data⟩],
          [⟨"a.txt".data, "c".data⟩]⟩).1.successful = 1 := by decide

/-- Claim C2 (amended): the combination gate fires iff `successful > 0` —
and skipped files count as successful, so a run in which every discovered
file is skipped *does* trigger combination (see the counterexample). -/

theorem claim_C2_combination_gate (oracle : PyPath → OcrOutcome)
    (files : List PyPath) (st : BatchState) :
    (processAllImages oracle files st).2.2 = true ↔
      0 < (processAllImages oracle files st).1.successful := by
  by_cases he : files.isEmpty
  · simp [processAllImages, he]
  · simp [processAllImages, he]

/-- Witness for C2: the gate fires on a concrete all-skipped run. -/

theorem claim_C2_combination_gate_witness :
    (processAllImages (fun _ => OcrOutcome.failure "e".data)
        [["img".data, "a.png".data]]
        ⟨[⟨"a.txt".data, "r".data⟩],
          [⟨"a.txt".data, "c".data⟩]⟩).2.2 = true :=
  (claim_C2_combination_gate (fun _ => OcrOutcome.failure "e".data)
    [["img".data, "a.png".data]]
    ⟨[⟨"a.txt".data, "r".data⟩], [⟨"a.txt".data, "c".data⟩]⟩).mpr (by decide)

/-- Counterexample to C2 as stated: every discovered file is skipped (the
run changes nothing: the final state is the initial state and no OCR
happened), yet the combination gate fires. -/

theorem claim_C2_counterexample :
    processAllImages (fun _ => OcrOutcome.failure "e".data)
        [["img".data, "a.png".data]]
        ⟨[⟨"a.txt".data, "r".data⟩], [⟨"a.txt".data, "c".data⟩]⟩ =
      (⟨1, 1, 0, [], ["img/a.png".data]⟩,
        ⟨[⟨"a.txt".data, "r".data⟩], [⟨"a.txt".data, "c".data⟩]⟩,
        true) := by decide

example : pySplit "  a\n\nb   c ".data = [['a'], ['b'], ['c']] := by decide

example : joinWords [['a'], ['b'], ['c']] = "a b c".data := by decide

example : cleanTransform "  a\n\nb   c ".data = "a b c".data := by decide

example : stripMetadata "m1\nm2\nHello world\n".data = "Hello world\n".data := by
  decide

example : stripMetadata "a\nb".data = "a\nb".data := by decide
